import Mathlib

/-!
Verification of the code allocation core of `four_digit_bot`.

The durable store (`src/four_digit_bot/db.py`, class `CodeRepository`) is a
SQLite table `codes(code INTEGER PRIMARY KEY, used INTEGER)`.  After the
idempotent bootstrap (`_seed_codes`) the table holds exactly the rows
`0 .. 9999`; from then on only the `used` flag of a row ever changes.  We
embed a bootstrapped store as the finite set of codes whose `used` flag is 1,
and each repository method as a function on that state:

* `get_unused_count`  — `SELECT COUNT(*) FROM codes WHERE used=0`;
* `take_random_code`  — the atomic `UPDATE .. WHERE code = (SELECT code FROM
  codes WHERE used = 0 ORDER BY RANDOM() LIMIT 1) RETURNING code`: the
  subselect yields some member of the available set when it is nonempty
  (membership is structural for the SQL engine, hence the subtype in
  `RandomChoice`) and no row when it is empty, in which case the update
  matches nothing and the method returns `None`;
* `import_used`       — set-comprehension dedup and 0–9999 range filter,
  early return 0 on an empty set, otherwise one `UPDATE .. WHERE code = ?
  AND used = 0` per code, returning the accumulated rowcount;
* `export_used`       — `SELECT code FROM codes WHERE used=1 ORDER BY code`;
* `clear_used`        — `UPDATE codes SET used = 0 WHERE used = 1`, returning
  the rowcount;
* `_seed_codes`       — modelled separately on raw row-key sets (`seed_codes`
  below), since corruption claims are about pre-bootstrap states.

The pure probability helper `cumulative_success_prob`
(`src/four_digit_bot/main.py`) is embedded over `ℚ`: Python evaluates
`math.comb` exactly and only the final division rounds; the 0.0/1.0 edge
branches are exact and rounding a division to nearest is monotone, so order
and range facts proved over `ℚ` hold of the float result as well.
-/

namespace FourDigitBot

/-- State of a bootstrapped store: the set of codes whose `used` flag is 1.
The table's row keys are exactly `0 .. 9999` after `_seed_codes`. -/
structure Store where
  used : Finset Nat
  deriving DecidableEq

/-- Fresh store: bootstrap inserts all of `0 .. 9999` with `used = 0`. -/
def initStore : Store := ⟨∅⟩

/-- The rows `SELECT code FROM codes WHERE used = 0` returns: available
codes. -/
def Store.avail (s : Store) : Finset Nat := Finset.range 10000 \ s.used

/-- `CodeRepository.get_unused_count`: `SELECT COUNT(*) FROM codes WHERE
used=0;`. -/
def get_unused_count (s : Store) : Nat := s.avail.card

/-- The row `ORDER BY RANDOM() LIMIT 1` picks: some member of the (nonempty)
result set of the subselect.  Which member is random; membership in the
queried set is guaranteed by the SQL engine, hence the subtype. -/
abbrev RandomChoice : Type := (t : Finset Nat) → t.Nonempty → {c : Nat // c ∈ t}

/-- `CodeRepository.take_random_code`: the single `UPDATE` flips the flag of
the row selected by the subselect and returns its code; when no row has
`used = 0` the subselect is empty, the `UPDATE` matches nothing, and the
method returns `None`. -/
def take_random_code (pick : RandomChoice) (s : Store) : Option Nat × Store :=
  if h : s.avail.Nonempty then
    (some (pick s.avail h).val, ⟨insert (pick s.avail h).val s.used⟩)
  else
    (none, s)

/-- A deterministic instance of `RandomChoice` (used only to instantiate
theorems at concrete inputs): always the least available code. -/
def minPick : RandomChoice := fun t h => ⟨t.min' h, t.min'_mem h⟩

/-- The set `{int(c) for c in codes if 0 <= int(c) <= 9999}` built by
`CodeRepository.import_used`: dedup plus range filter. -/
def unique_codes (codes : List Int) : Finset Nat :=
  ((codes.filter fun c => decide (0 ≤ c ∧ c ≤ 9999)).map Int.toNat).toFinset

/-- `CodeRepository.import_used`: empty filtered set returns 0 before any
transaction; otherwise each `UPDATE codes SET used = 1 WHERE code = ? AND
used = 0` flips one not-yet-used row, and the accumulated rowcount (the
number of rows actually flipped) is returned. -/
def import_used (codes : List Int) (s : Store) : Nat × Store :=
  if unique_codes codes = ∅ then (0, s)
  else ((unique_codes codes \ s.used).card, ⟨s.used ∪ unique_codes codes⟩)

/-- Whether `import_used` reaches `BEGIN IMMEDIATE;`: the guard
`if not unique_codes: return 0` precedes the lock and the transaction. -/
def import_used_opens_txn (codes : List Int) : Bool :=
  decide (unique_codes codes ≠ ∅)

/-- `CodeRepository.export_used`: `SELECT code FROM codes WHERE used=1 ORDER
BY code;`. -/
def export_used (s : Store) : List Nat := s.used.sort (· ≤ ·)

/-- `CodeRepository.clear_used`: `UPDATE codes SET used = 0 WHERE used = 1;`
returns the rowcount, the number of rows whose flag was 1. -/
def clear_used (s : Store) : Nat × Store := (s.used.card, ⟨∅⟩)

/-- `CodeRepository._seed_codes`, acting on the set of row keys found in a
loaded (possibly corrupt) table: if the row count is exactly 10000 it
returns at once; otherwise it inserts (`INSERT OR IGNORE`) every key of
`range(10000)` not already present.  There is no failure path. -/
def seed_codes (rows : Finset Nat) : Finset Nat :=
  if rows.card = 10000 then rows
  else rows ∪ (Finset.range 10000).filter (fun c => decide (c ∉ rows))

/-- One caller-visible store operation (`CodeService` delegates each to the
repository method embedded above).  `remainingOp` and `exportOp` are reads
and leave the state unchanged. -/
inductive Op where
  | take (pick : RandomChoice)
  | imp (codes : List Int)
  | clearOp
  | remainingOp
  | exportOp

/-- The state reached by running one operation. -/
def applyOp (s : Store) : Op → Store
  | .take pick => (take_random_code pick s).2
  | .imp codes => (import_used codes s).2
  | .clearOp => (clear_used s).2
  | .remainingOp => s
  | .exportOp => s

/-- The state reached from a fresh store by a finite operation sequence. -/
def applyOps (ops : List Op) : Store := ops.foldl applyOp initStore

/-- The state after `n` sequential `take_random_code` calls on a fresh
store. -/
def takeStream (pick : RandomChoice) : Nat → Store
  | 0 => initStore
  | n + 1 => (take_random_code pick (takeStream pick n)).2

/-- The result of the `n`-th (0-based) sequential `take_random_code` call on
a fresh store. -/
def takeOut (pick : RandomChoice) (n : Nat) : Option Nat :=
  (take_random_code pick (takeStream pick n)).1

/-- `cumulative_success_prob` of `src/four_digit_bot/main.py`, over `ℚ`:
`if draws <= 0 or success_count <= 0 or total <= 0: return 0.0`, clamp
`draws` and `success_count` to `total`, `return 1.0` when
`draws > total - success_count`, else
`1 - comb(total - success_count, draws) / comb(total, draws)`. -/
def cumulative_success_prob (total success_count draws : Int) : ℚ :=
  if draws ≤ 0 ∨ success_count ≤ 0 ∨ total ≤ 0 then 0
  else if total - min success_count total < min draws total then 1
  else 1 -
    (Nat.choose (total - min success_count total).toNat (min draws total).toNat : ℚ) /
    (Nat.choose total.toNat (min draws total).toNat : ℚ)

/-! ### Basic lemmas about the store operations -/

/-- `take_random_code` when some row is available. -/
theorem take_random_code_pos (pick : RandomChoice) (s : Store) (h : s.avail.Nonempty) :
    take_random_code pick s =
      (some (pick s.avail h).val, ⟨insert (pick s.avail h).val s.used⟩) := by
  simp [take_random_code, h]

/-- `take_random_code` when no row is available. -/
theorem take_random_code_neg (pick : RandomChoice) (s : Store) (h : ¬ s.avail.Nonempty) :
    take_random_code pick s = (none, s) := by
  simp [take_random_code, h]

/-- Membership in the deduplicated, range-filtered import set. -/
theorem mem_unique_codes (codes : List Int) (c : Nat) :
    c ∈ unique_codes codes ↔ (c : Int) ∈ codes ∧ c ≤ 9999 := by
  simp only [unique_codes, List.mem_toFinset, List.mem_map, List.mem_filter,
    decide_eq_true_eq]
  constructor
  · rintro ⟨x, ⟨hx, h0, h9⟩, rfl⟩
    refine ⟨?_, ?_⟩
    · rwa [Int.toNat_of_nonneg h0]
    · omega
  · rintro ⟨hc, h9⟩
    exact ⟨(c : Int), ⟨hc, by positivity, by exact_mod_cast h9⟩, Int.toNat_natCast c⟩

/-- The import set only holds codes of the valid range. -/
theorem unique_codes_subset_range (codes : List Int) :
    unique_codes codes ⊆ Finset.range 10000 := by
  intro c hc
  rw [mem_unique_codes] at hc
  simp only [Finset.mem_range]
  omega

/-- Both branches of `import_used` compute the same count and state. -/
theorem import_used_eq (codes : List Int) (s : Store) :
    import_used codes s =
      ((unique_codes codes \ s.used).card, ⟨s.used ∪ unique_codes codes⟩) := by
  unfold import_used
  split
  · next h => simp [h]
  · rfl

/-- Claim C1: `take_random_code` returns `None` exactly when no row has
`used = 0` (and then changes nothing); otherwise it returns a code `c` that
was available (hence not used) before the call, is used after it, every
other code's flag is unchanged, and the count of available codes decreases
by exactly one. -/
theorem C1_take_random_code_spec (pick : RandomChoice) (s : Store) :
    ((take_random_code pick s).1 = none ↔ s.avail = ∅)
    ∧ ((take_random_code pick s).1 = none → (take_random_code pick s).2 = s)
    ∧ ∀ c : Nat, (take_random_code pick s).1 = some c →
        c ∈ s.avail ∧ c ∉ s.used
        ∧ c ∈ (take_random_code pick s).2.used
        ∧ (∀ d : Nat, d ≠ c →
            (d ∈ (take_random_code pick s).2.used ↔ d ∈ s.used))
        ∧ get_unused_count s = get_unused_count (take_random_code pick s).2 + 1 := by
  by_cases h : s.avail.Nonempty
  · rw [take_random_code_pos pick s h]
    have hc₀ : (pick s.avail h).val ∈ s.avail := (pick s.avail h).property
    refine ⟨?_, ?_, ?_⟩
    · simp only [iff_false]
      constructor
      · intro hx
        exact absurd hx (by simp)
      · intro hx
        rw [hx] at h
        exact absurd h (by simp)
    · intro hx
      exact absurd hx (by simp)
    · intro c hc
      have hcc : (pick s.avail h).val = c := by
        simpa using hc
      rw [hcc] at hc₀ ⊢
      have hnotused : c ∉ s.used := (Finset.mem_sdiff.mp hc₀).2
      refine ⟨hc₀, hnotused, Finset.mem_insert_self c s.used, ?_, ?_⟩
      · intro d hd
        simp [Finset.mem_insert, hd]
      · have hsd : Store.avail ⟨insert c s.used⟩ = s.avail.erase c := by
          simp only [Store.avail]
          exact Finset.sdiff_insert (Finset.range 10000) s.used c
        simp only [get_unused_count, hsd]
        exact (Finset.card_erase_add_one hc₀).symm
  · rw [take_random_code_neg pick s h]
    rw [Finset.not_nonempty_iff_eq_empty] at h
    refine ⟨by simp [h], fun _ => rfl, ?_⟩
    intro c hc
    exact absurd hc (by simp)

/-- Every operation keeps the used set inside the table's rows `0 .. 9999`:
a claim flips a row of the table, an import only flips rows of the filtered
range, a clear empties the set, reads change nothing. -/
theorem applyOp_used_subset (s : Store) (o : Op)
    (h : s.used ⊆ Finset.range 10000) :
    (applyOp s o).used ⊆ Finset.range 10000 := by
  cases o with
  | take pick =>
    by_cases hne : s.avail.Nonempty
    · rw [applyOp, take_random_code_pos pick s hne]
      intro d hd
      rcases Finset.mem_insert.mp hd with hdc | hdu
      · have hp := (pick s.avail hne).property
        rw [hdc]
        exact (Finset.mem_sdiff.mp hp).1
      · exact h hdu
    · rw [applyOp, take_random_code_neg pick s hne]
      exact h
  | imp codes =>
    rw [applyOp, import_used_eq]
    exact Finset.union_subset h (unique_codes_subset_range codes)
  | clearOp =>
    intro d hd
    exact absurd hd (by simp [applyOp, clear_used])
  | remainingOp => exact h
  | exportOp => exact h

/-- The invariant `used ⊆ range 10000` holds along any operation sequence. -/
theorem foldl_applyOp_used_subset (ops : List Op) :
    ∀ s : Store, s.used ⊆ Finset.range 10000 →
      (ops.foldl applyOp s).used ⊆ Finset.range 10000 := by
  induction ops with
  | nil => intro s h; exact h
  | cons o rest ih =>
    intro s h
    exact ih (applyOp s o) (applyOp_used_subset s o h)

/-- Claim C2: conservation — after any finite sequence of take, import,
clear, remaining and export operations on a fresh store, the count of
available codes plus the length of the exported used-code list is 10000. -/
theorem C2_conservation (ops : List Op) :
    get_unused_count (applyOps ops) + (export_used (applyOps ops)).length = 10000 := by
  have hsub : (applyOps ops).used ⊆ Finset.range 10000 :=
    foldl_applyOp_used_subset ops initStore (by simp [initStore])
  have hcard : (applyOps ops).used.card ≤ 10000 := by
    have := Finset.card_le_card hsub
    simpa using this
  have h1 : get_unused_count (applyOps ops) = 10000 - (applyOps ops).used.card := by
    simp [get_unused_count, Store.avail, Finset.card_sdiff hsub]
  have h2 : (export_used (applyOps ops)).length = (applyOps ops).used.card := by
    simp [export_used, Finset.length_sort]
  omega

/-- A claim never clears a flag: the used set only grows. -/
theorem take_used_subset (pick : RandomChoice) (s : Store) :
    s.used ⊆ (take_random_code pick s).2.used := by
  by_cases h : s.avail.Nonempty
  · rw [take_random_code_pos pick s h]
    exact Finset.subset_insert _ _
  · rw [take_random_code_neg pick s h]

/-- Along sequential claims the used set grows monotonically. -/
theorem takeStream_used_mono (pick : RandomChoice) {i j : Nat} (h : i ≤ j) :
    (takeStream pick i).used ⊆ (takeStream pick j).used := by
  induction j, h using Nat.le_induction with
  | base => exact fun d hd => hd
  | succ k _ ih =>
    exact ih.trans (take_used_subset pick (takeStream pick k))

/-- After `k ≤ 10000` sequential claims on a fresh store, the used set has
exactly `k` codes, all in range. -/
theorem takeStream_card (pick : RandomChoice) :
    ∀ k, k ≤ 10000 →
      (takeStream pick k).used ⊆ Finset.range 10000 ∧ (takeStream pick k).used.card = k := by
  intro k
  induction k with
  | zero => intro _; simp [takeStream, initStore]
  | succ n ih =>
    intro hn
    obtain ⟨hsub, hcard⟩ := ih (by omega)
    have havail : (takeStream pick n).avail.card = 10000 - n := by
      simp [Store.avail, Finset.card_sdiff hsub, hcard]
    have hne : (takeStream pick n).avail.Nonempty := by
      rw [← Finset.card_pos, havail]
      omega
    have hstep : (takeStream pick (n + 1)).used =
        insert (pick (takeStream pick n).avail hne).val (takeStream pick n).used := by
      show (take_random_code pick (takeStream pick n)).2.used = _
      rw [take_random_code_pos pick (takeStream pick n) hne]
    have hmem : (pick (takeStream pick n).avail hne).val ∈ (takeStream pick n).avail :=
      (pick (takeStream pick n).avail hne).property
    have hnot : (pick (takeStream pick n).avail hne).val ∉ (takeStream pick n).used :=
      (Finset.mem_sdiff.mp hmem).2
    constructor
    · rw [hstep]
      intro d hd
      rcases Finset.mem_insert.mp hd with hdc | hdu
      · rw [hdc]
        exact (Finset.mem_sdiff.mp hmem).1
      · exact hsub hdu
    · rw [hstep, Finset.card_insert_of_not_mem hnot, hcard]

/-- A successful sequential claim returns a code not yet used at its step
and used from the next step on. -/
theorem takeOut_mem (pick : RandomChoice) (i : Nat) (c : Nat)
    (h : takeOut pick i = some c) :
    c ∉ (takeStream pick i).used ∧ c ∈ (takeStream pick (i + 1)).used := by
  by_cases hne : (takeStream pick i).avail.Nonempty
  · have hval : (pick (takeStream pick i).avail hne).val = c := by
      have := h
      rw [takeOut, take_random_code_pos pick (takeStream pick i) hne] at this
      simpa using this
    have hmem := (pick (takeStream pick i).avail hne).property
    rw [hval] at hmem
    have hstep : (takeStream pick (i + 1)).used =
        insert (pick (takeStream pick i).avail hne).val (takeStream pick i).used := by
      show (take_random_code pick (takeStream pick i)).2.used = _
      rw [take_random_code_pos pick (takeStream pick i) hne]
    refine ⟨(Finset.mem_sdiff.mp hmem).2, ?_⟩
    rw [hstep, hval]
    exact Finset.mem_insert_self c _
  · rw [takeOut, take_random_code_neg pick (takeStream pick i) hne] at h
    exact absurd h (by simp)

/-- Claim C3: sequential claims from a fresh store never return the same
code twice; the first 10000 claims all succeed, the 10001st returns `None`,
and the available count is then 0. -/
theorem C3_uniqueness_exhaustion (pick : RandomChoice) :
    (∀ i j c c' : Nat, i < j →
        takeOut pick i = some c → takeOut pick j = some c' → c ≠ c')
    ∧ (∀ k, k < 10000 → (takeOut pick k).isSome = true)
    ∧ takeOut pick 10000 = none
    ∧ get_unused_count (takeStream pick 10000) = 0 := by
  have hfull : (takeStream pick 10000).used = Finset.range 10000 := by
    obtain ⟨hsub, hcard⟩ := takeStream_card pick 10000 le_rfl
    apply Finset.eq_of_subset_of_card_le hsub
    rw [hcard, Finset.card_range]
  have hempty : (takeStream pick 10000).avail = ∅ := by
    simp [Store.avail, hfull]
  refine ⟨?_, ?_, ?_, ?_⟩
  · intro i j c c' hij hi hj heq
    subst heq
    have h1 : c ∈ (takeStream pick (i + 1)).used := (takeOut_mem pick i c hi).2
    have h2 : c ∉ (takeStream pick j).used := (takeOut_mem pick j c hj).1
    exact h2 (takeStream_used_mono pick (by omega) h1)
  · intro k hk
    obtain ⟨hsub, hcard⟩ := takeStream_card pick k (by omega)
    have hne : (takeStream pick k).avail.Nonempty := by
      rw [← Finset.card_pos]
      simp only [Store.avail, Finset.card_sdiff hsub, hcard, Finset.card_range]
      omega
    rw [takeOut, take_random_code_pos pick (takeStream pick k) hne]
    rfl
  · rw [takeOut, take_random_code_neg pick (takeStream pick 10000) (by rw [hempty]; simp)]
  · simp [get_unused_count, hempty]

/-- Claim C4: `import_used` deduplicates its input, silently drops values
outside 0–9999, marks used exactly the remaining codes whose row still has
`used = 0` (already-used rows are untouched), and returns the number of rows
actually flipped — the size of the difference between the used sets after
and before the call. -/
theorem C4_import_used_spec (codes : List Int) (s : Store) :
    (∀ c : Nat, c ∈ (import_used codes s).2.used ↔
        c ∈ s.used ∨ ((c : Int) ∈ codes ∧ c ≤ 9999))
    ∧ (import_used codes s).1 = ((import_used codes s).2.used \ s.used).card
    ∧ import_used codes.dedup s = import_used codes s := by
  have hdedup : unique_codes codes.dedup = unique_codes codes := by
    ext c
    rw [mem_unique_codes, mem_unique_codes, List.mem_dedup]
  refine ⟨?_, ?_, ?_⟩
  · intro c
    rw [import_used_eq]
    simp only [Finset.mem_union, mem_unique_codes]
  · rw [import_used_eq]
    simp only
    congr 1
    ext c
    simp only [Finset.mem_sdiff, Finset.mem_union]
    tauto
  · rw [import_used_eq, import_used_eq, hdedup]

/-- Claim C5: on a fresh store, importing `X` and exporting yields an
ascending duplicate-free list holding exactly the in-range values of `X`;
clearing afterwards makes the export empty and the available count 10000. -/
theorem C5_import_export_clear_roundtrip (X : List Int) :
    List.Sorted (· ≤ ·) (export_used (import_used X initStore).2)
    ∧ (export_used (import_used X initStore).2).Nodup
    ∧ (∀ c : Nat, c ∈ export_used (import_used X initStore).2 ↔
        ((c : Int) ∈ X ∧ c ≤ 9999))
    ∧ export_used (clear_used (import_used X initStore).2).2 = []
    ∧ get_unused_count (clear_used (import_used X initStore).2).2 = 10000 := by
  refine ⟨Finset.sort_sorted _ _, Finset.sort_nodup _ _, ?_, ?_, ?_⟩
  · intro c
    rw [export_used, Finset.mem_sort, import_used_eq]
    simp only [initStore, Finset.empty_union, mem_unique_codes]
  · simp [export_used, clear_used]
  · simp [get_unused_count, clear_used, Store.avail]

/-- Claim C6: `import_used` is idempotent — a second call with the same
input leaves the store exactly as the first left it and returns 0. -/
theorem C6_import_used_idempotent (codes : List Int) (s : Store) :
    import_used codes (import_used codes s).2 = (0, (import_used codes s).2) := by
  rw [import_used_eq, import_used_eq]
  simp only [Prod.mk.injEq, Store.mk.injEq]
  constructor
  · rw [Finset.card_eq_zero, Finset.sdiff_eq_empty_iff_subset]
    exact Finset.subset_union_right
  · rw [Finset.union_assoc, Finset.union_self]

/-- A loaded table whose 10000 row keys are `0 .. 9998` and the out-of-range
key `10000`. -/
def badRows : Finset Nat := insert 10000 (Finset.range 9999)

/-- Claim C9 counterexample: on a loaded state violating the 10000-slot
invariant (key `10000` present, key `9999` missing), `_seed_codes` sees a
row count of exactly 10000 and returns at once — the corrupt state is
accepted unchanged; no error of any kind is raised. -/
theorem C9_counterexample :
    (10000 ∈ badRows ∧ ¬ badRows ⊆ Finset.range 10000)
    ∧ seed_codes badRows = badRows := by
  have hmem : 10000 ∈ badRows := Finset.mem_insert_self _ _
  have hcard : badRows.card = 10000 := by
    rw [badRows, Finset.card_insert_of_not_mem (by simp), Finset.card_range]
  refine ⟨⟨hmem, ?_⟩, ?_⟩
  · intro hsub
    have := hsub hmem
    simp at this
  · rw [seed_codes, if_pos hcard]

/-- Claim C9 amended: initialization never fails and never repairs — the
bootstrap keeps every existing row (an out-of-range key is silently
retained) and at most inserts the missing in-range keys; no `Corrupt` (or
any other) error is surfaced for a state violating the 10000-slot
invariant. -/
theorem C9_bootstrap_silently_accepts (rows : Finset Nat) :
    rows ⊆ seed_codes rows
    ∧ seed_codes rows ⊆ rows ∪ Finset.range 10000 := by
  rw [seed_codes]
  split
  · exact ⟨le_rfl, Finset.subset_union_left⟩
  · refine ⟨Finset.subset_union_left, Finset.union_subset_union le_rfl ?_⟩
    exact Finset.filter_subset _ _

/-- Claim C10: when no input value lies in 0–9999 (in particular on empty
input), `import_used` returns 0 through the early-return branch — before
the lock and `BEGIN IMMEDIATE;` — and the store is untouched. -/
theorem C10_import_all_invalid_noop (codes : List Int) (s : Store)
    (h : ∀ c ∈ codes, c < 0 ∨ 9999 < c) :
    import_used codes s = (0, s) ∧ import_used_opens_txn codes = false := by
  have hempty : unique_codes codes = ∅ := by
    rw [Finset.eq_empty_iff_forall_not_mem]
    intro c hc
    rw [mem_unique_codes] at hc
    rcases h (c : Int) hc.1 with hneg | hbig
    · omega
    · have : (c : Int) ≤ 9999 := by exact_mod_cast hc.2
      omega
  constructor
  · rw [import_used, if_pos hempty]
  · simp [import_used_opens_txn, hempty]

/-- Claim C10 at a concrete input: the list `[-1, 10000, 123456]` has no
value in range, so the import is a transactionless no-op returning 0. -/
theorem C10_import_all_invalid_noop_witness :
    import_used [-1, 10000, 123456] initStore = (0, initStore)
    ∧ import_used_opens_txn [-1, 10000, 123456] = false :=
  C10_import_all_invalid_noop [-1, 10000, 123456] initStore (by decide)

/-! ### The probability estimator -/

/-- Claim C7: the estimator's edge-case policy — result 0 when any of
`draws`, `success_count`, `total` is nonpositive; result exactly 1 when,
after clamping to `total`, `draws` exceeds `total - success_count`; and the
three boundary instances of the spec. -/
theorem C7_prob_edge_cases :
    (∀ total sc draws : Int, draws ≤ 0 ∨ sc ≤ 0 ∨ total ≤ 0 →
      cumulative_success_prob total sc draws = 0)
    ∧ (∀ total sc draws : Int, ¬ (draws ≤ 0 ∨ sc ≤ 0 ∨ total ≤ 0) →
        total - min sc total < min draws total →
        cumulative_success_prob total sc draws = 1)
    ∧ cumulative_success_prob 10000 88 0 = 0
    ∧ cumulative_success_prob 10000 88 10000 = 1
    ∧ cumulative_success_prob 100 100 1 = 1 := by
  refine ⟨?_, ?_, ?_, ?_, ?_⟩
  · intro total sc draws h
    rw [cumulative_success_prob, if_pos h]
  · intro total sc draws h1 h2
    rw [cumulative_success_prob, if_neg h1, if_pos h2]
  · rw [cumulative_success_prob, if_pos (by norm_num)]
  · rw [cumulative_success_prob, if_neg (by norm_num), if_pos (by norm_num)]
  · rw [cumulative_success_prob, if_neg (by norm_num), if_pos (by norm_num)]

/-- Cross-multiplied single step of the antitone binomial ratio:
`choose a (k+1) / choose T (k+1) ≤ choose a k / choose T k` for `a ≤ T`. -/
theorem choose_mul_succ_le (a T k : Nat) (h : a ≤ T) :
    Nat.choose a (k + 1) * Nat.choose T k ≤ Nat.choose a k * Nat.choose T (k + 1) := by
  have hsub : a - k ≤ T - k := Nat.sub_le_sub_right h k
  have key : Nat.choose a (k + 1) * Nat.choose T k * (k + 1) ≤
      Nat.choose a k * Nat.choose T (k + 1) * (k + 1) := by
    calc Nat.choose a (k + 1) * Nat.choose T k * (k + 1)
        = Nat.choose a (k + 1) * (k + 1) * Nat.choose T k := by ring
      _ = Nat.choose a k * (a - k) * Nat.choose T k := by rw [Nat.choose_succ_right_eq]
      _ = Nat.choose a k * Nat.choose T k * (a - k) := by ring
      _ ≤ Nat.choose a k * Nat.choose T k * (T - k) := mul_le_mul_left' hsub _
      _ = Nat.choose a k * (Nat.choose T k * (T - k)) := by ring
      _ = Nat.choose a k * (Nat.choose T (k + 1) * (k + 1)) := by
            rw [Nat.choose_succ_right_eq]
      _ = Nat.choose a k * Nat.choose T (k + 1) * (k + 1) := by ring
  exact Nat.le_of_mul_le_mul_right key (Nat.succ_pos k)

/-- Cross-multiplied antitone binomial ratio: for `k1 ≤ k2 ≤ T` and
`a ≤ T`, `choose a k2 / choose T k2 ≤ choose a k1 / choose T k1`. -/
theorem choose_mul_le_of_le (a T : Nat) (h : a ≤ T) (k1 k2 : Nat) (h12 : k1 ≤ k2) :
    k2 ≤ T → Nat.choose a k2 * Nat.choose T k1 ≤ Nat.choose a k1 * Nat.choose T k2 := by
  induction k2, h12 using Nat.le_induction with
  | base => intro _; rw [mul_comm]
  | succ k hk ih =>
    intro hkT
    have hkT' : k ≤ T := by omega
    have hpos : 0 < Nat.choose T k := Nat.choose_pos hkT'
    have ihk := ih hkT'
    have step := choose_mul_succ_le a T k h
    have key : Nat.choose a (k + 1) * Nat.choose T k1 * Nat.choose T k ≤
        Nat.choose a k1 * Nat.choose T (k + 1) * Nat.choose T k := by
      calc Nat.choose a (k + 1) * Nat.choose T k1 * Nat.choose T k
          = Nat.choose a (k + 1) * Nat.choose T k * Nat.choose T k1 := by ring
        _ ≤ Nat.choose a k * Nat.choose T (k + 1) * Nat.choose T k1 :=
            mul_le_mul_right' step _
        _ = Nat.choose a k * Nat.choose T k1 * Nat.choose T (k + 1) := by ring
        _ ≤ Nat.choose a k1 * Nat.choose T k * Nat.choose T (k + 1) :=
            mul_le_mul_right' ihk _
        _ = Nat.choose a k1 * Nat.choose T (k + 1) * Nat.choose T k := by ring
    exact Nat.le_of_mul_le_mul_right key hpos

/-- The binomial ratio `choose a k / choose T k` over `ℚ` is antitone in
`k` up to `T`, for `a ≤ T`. -/
theorem choose_ratio_antitone (a T k1 k2 : Nat) (h : a ≤ T) (h12 : k1 ≤ k2)
    (h2T : k2 ≤ T) :
    (Nat.choose a k2 : ℚ) / (Nat.choose T k2 : ℚ) ≤
      (Nat.choose a k1 : ℚ) / (Nat.choose T k1 : ℚ) := by
  have p1 : (0 : ℚ) < (Nat.choose T k1 : ℚ) := by
    exact_mod_cast Nat.choose_pos (le_trans h12 h2T)
  have p2 : (0 : ℚ) < (Nat.choose T k2 : ℚ) := by
    exact_mod_cast Nat.choose_pos h2T
  rw [div_le_div_iff₀ p2 p1]
  exact_mod_cast choose_mul_le_of_le a T h k1 k2 h12 h2T

/-- The estimator's value always lies in `[0, 1]`. -/
theorem cumulative_success_prob_mem_unit (total sc draws : Int) :
    0 ≤ cumulative_success_prob total sc draws
    ∧ cumulative_success_prob total sc draws ≤ 1 := by
  rw [cumulative_success_prob]
  split
  · norm_num
  · split
    · norm_num
    · next h1 h2 =>
      push_neg at h1 h2
      have haT : (total - min sc total).toNat ≤ total.toNat :=
        Int.toNat_le_toNat (by omega)
      have hkT : (min draws total).toNat ≤ total.toNat :=
        Int.toNat_le_toNat (by omega)
      have hle : (Nat.choose (total - min sc total).toNat (min draws total).toNat : ℚ) ≤
          (Nat.choose total.toNat (min draws total).toNat : ℚ) := by
        exact_mod_cast Nat.choose_le_choose (min draws total).toNat haT
      have hpos : (0 : ℚ) <
          (Nat.choose total.toNat (min draws total).toNat : ℚ) := by
        exact_mod_cast Nat.choose_pos hkT
      have hnn : (0 : ℚ) ≤
          (Nat.choose (total - min sc total).toNat (min draws total).toNat : ℚ) /
          (Nat.choose total.toNat (min draws total).toNat : ℚ) :=
        div_nonneg (by positivity) (le_of_lt hpos)
      constructor
      · rw [sub_nonneg, div_le_one hpos]
        exact hle
      · linarith

/-- Claim C8: the estimator's value lies in `[0, 1]` and, for fixed `total`
and `success_count`, is monotone non-decreasing in `draws`. -/
theorem C8_prob_range_monotone (total sc d1 d2 : Int) :
    (0 ≤ cumulative_success_prob total sc d1
      ∧ cumulative_success_prob total sc d1 ≤ 1)
    ∧ (d1 ≤ d2 →
        cumulative_success_prob total sc d1 ≤ cumulative_success_prob total sc d2) := by
  refine ⟨cumulative_success_prob_mem_unit total sc d1, ?_⟩
  intro h12
  by_cases h0 : d1 ≤ 0 ∨ sc ≤ 0 ∨ total ≤ 0
  · have hL : cumulative_success_prob total sc d1 = 0 := by
      rw [cumulative_success_prob, if_pos h0]
    rw [hL]
    exact (cumulative_success_prob_mem_unit total sc d2).1
  · push_neg at h0
    by_cases hb1 : total - min sc total < min d1 total
    · have hb2 : total - min sc total < min d2 total := by omega
      have hL : cumulative_success_prob total sc d1 = 1 := by
        rw [cumulative_success_prob, if_neg (by omega), if_pos hb1]
      have hR : cumulative_success_prob total sc d2 = 1 := by
        rw [cumulative_success_prob, if_neg (by omega), if_pos hb2]
      rw [hL, hR]
    · by_cases hb2 : total - min sc total < min d2 total
      · have hR : cumulative_success_prob total sc d2 = 1 := by
          rw [cumulative_success_prob, if_neg (by omega), if_pos hb2]
        rw [hR]
        exact (cumulative_success_prob_mem_unit total sc d1).2
      · have hL : cumulative_success_prob total sc d1 = 1 -
            (Nat.choose (total - min sc total).toNat (min d1 total).toNat : ℚ) /
            (Nat.choose total.toNat (min d1 total).toNat : ℚ) := by
          rw [cumulative_success_prob, if_neg (by omega), if_neg hb1]
        have hR : cumulative_success_prob total sc d2 = 1 -
            (Nat.choose (total - min sc total).toNat (min d2 total).toNat : ℚ) /
            (Nat.choose total.toNat (min d2 total).toNat : ℚ) := by
          rw [cumulative_success_prob, if_neg (by omega), if_neg hb2]
        rw [hL, hR]
        have key := choose_ratio_antitone (total - min sc total).toNat total.toNat
          (min d1 total).toNat (min d2 total).toNat
          (Int.toNat_le_toNat (by omega)) (Int.toNat_le_toNat (by omega))
          (Int.toNat_le_toNat (by omega))
        linarith

end FourDigitBot
